import Mathlib

/-!
Shallow embedding of the word-frequency Streamlit app (`src/Hello.py`) and
proofs about its pipeline: character normalization, token aggregation,
top-N selection, the funnel-chart percentage adapter, the image gallery
loop, and the top-level fetch/render cycle.
-/

namespace Hello

/-- Embeds the character class of the regex `[^a-zA-Z0-9一-龥]`
used at `Hello.py:44`: a character survives `re.sub(pattern, '', content)`
exactly when it is a Latin letter, a digit, or a CJK unified ideograph in
U+4E00..U+9FA5. -/
def isAllowed (c : Char) : Bool :=
  (97 ≤ c.toNat && c.toNat ≤ 122) || (65 ≤ c.toNat && c.toNat ≤ 90) ||
  (48 ≤ c.toNat && c.toNat ≤ 57) || (0x4e00 ≤ c.toNat && c.toNat ≤ 0x9fa5)

/-- Embeds `re.sub(re.compile(r'[^a-zA-Z0-9一-龥]'), '', content)`
(`Hello.py:44-45`): every disallowed character is deleted (replaced by the
empty string), so the result is the input filtered to allowed characters. -/
def normalize (s : String) : String := String.mk (s.data.filter isAllowed)

/-- Embeds `counts[word] = counts.get(word, 0) + 1` on a Python dict
(`Hello.py:52`): Python dicts preserve insertion order, update the value in
place when the key exists, and append a new key at the end otherwise. -/
def dictIncr : List (String × Nat) → String → List (String × Nat)
  | [], w => [(w, 1)]
  | (k, v) :: rest, w =>
      if k = w then (k, v + 1) :: rest else (k, v) :: dictIncr rest w

/-- Embeds the aggregation loop of `Hello.py:47-52` starting from an
arbitrary accumulator: `for word in words: if len(word) == 1: continue
else: counts[word] = counts.get(word, 0) + 1`. -/
def aggregateFrom : List (String × Nat) → List String → List (String × Nat)
  | acc, [] => acc
  | acc, w :: ws =>
      aggregateFrom (if w.length = 1 then acc else dictIncr acc w) ws

/-- Embeds the full aggregation loop of `Hello.py:47-52` (empty initial
dict `counts = {}`). -/
def aggregate (ws : List String) : List (String × Nat) := aggregateFrom [] ws

/-- Stable insertion of one entry into a list already sorted by count
descending: the new entry goes before the first entry whose count it
reaches.  Used to embed Python's stable `sorted`/`list.sort` with
`key=lambda x: x[1], reverse=True` (`Hello.py:54` and `Hello.py:71`);
CPython documents that `reverse=True` keeps equal elements in their
original order, which this insertion also does. -/
def insertDesc (x : String × Nat) : List (String × Nat) → List (String × Nat)
  | [] => [x]
  | y :: ys => if y.2 ≤ x.2 then x :: y :: ys else y :: insertDesc x ys

/-- Stable sort by count descending, the semantics of
`sorted(counts.items(), key=lambda x: x[1], reverse=True)`
(`Hello.py:71`) and of `items.sort(key=lambda x: x[1], reverse=True)`
(`Hello.py:54`) on an insertion-ordered dict item list. -/
def sortDesc : List (String × Nat) → List (String × Nat)
  | [] => []
  | x :: xs => insertDesc x (sortDesc xs)

/-- Embeds `d[k] = v` on a Python dict represented as an insertion-ordered
association list: in-place update when the key exists, append otherwise. -/
def dictInsert : List (String × Nat) → String → Nat → List (String × Nat)
  | [], k, v => [(k, v)]
  | (k', v') :: rest, k, v =>
      if k' = k then (k', v) :: rest else (k', v') :: dictInsert rest k v

/-- Embeds the `dict(pairs)` conversion of `Hello.py:72`: insert the pairs
left to right into an initially empty dict. -/
def dictOfList (ps : List (String × Nat)) : List (String × Nat) :=
  ps.foldl (fun d p => dictInsert d p.1 p.2) []

/-- Embeds `get_top_counts` (`Hello.py:60-73`):
`dict(sorted(counts.items(), key=lambda x: x[1], reverse=True)[:num])`. -/
def get_top_counts (counts : List (String × Nat)) (num : Nat) :
    List (String × Nat) :=
  dictOfList ((sortDesc counts).take num)

/-- Sum of the values of a frequency table, `sum(table.values())`. -/
def sumValues (l : List (String × Nat)) : Nat := (l.map Prod.snd).sum

/-- Round-half-to-even on rationals, the idealized (exact-arithmetic)
semantics of Python's built-in `round` used by `round(x, 2)`. -/
def roundHalfEven (q : ℚ) : ℤ :=
  if q - ⌊q⌋ < 1 / 2 then ⌊q⌋
  else if 1 / 2 < q - ⌊q⌋ then ⌊q⌋ + 1
  else if ⌊q⌋ % 2 = 0 then ⌊q⌋ else ⌊q⌋ + 1

/-- Embeds Python's `round(x, 2)` over exact rationals. -/
def round2 (q : ℚ) : ℚ := (roundHalfEven (q * 100) : ℚ) / 100

/-- Embeds the list comprehension of `Hello.py:250`:
`[{"name": word, "value": round(count / total_count * 100, 2)} for word,
count in top_counts.items()]`.  Python evaluates `count / total_count`
per element, so `ZeroDivisionError` is raised on the first element when
`total = 0`, and never raised when the comprehension is empty. -/
def funnelLoop (total : Nat) :
    List (String × Nat) → Except String (List (String × ℚ))
  | [] => Except.ok []
  | e :: rest =>
      if total = 0 then Except.error "ZeroDivisionError"
      else
        match funnelLoop total rest with
        | Except.error m => Except.error m
        | Except.ok l =>
            Except.ok ((e.1, round2 ((e.2 : ℚ) / (total : ℚ) * 100)) :: l)

/-- Embeds the numeric part of `display_customized_chart`
(`Hello.py:249-250`): `total_count = sum(counts)` followed by the
percentage comprehension over `top_counts.items()`. -/
def funnelData (top_counts : List (String × Nat)) (counts : List Nat) :
    Except String (List (String × ℚ)) :=
  funnelLoop counts.sum top_counts

/-- An `<img>` tag as the gallery loop sees it: its `src` attribute
(absent `src` makes `img['src']` raise `KeyError`, outside the `try`)
and whether `urllib.request.urlopen(img_url)` succeeds. -/
structure ImgTag where
  src : Option String
  reachable : Bool
deriving DecidableEq

/-- A user-visible output of the gallery code path of `display_images`
(`Hello.py:147-166`). -/
inductive GalleryEvent where
  | header
  | image (url : String)
  | warning (url : String)
  | noImages
deriving DecidableEq

/-- The item `display_images` emits for one downloadable `<img>` tag:
`st.image` on success, `st.warning` on a caught download failure. -/
def galleryItem (i : ImgTag) : GalleryEvent :=
  if i.reachable then GalleryEvent.image (i.src.getD "")
  else GalleryEvent.warning (i.src.getD "")

def isImageEvent : GalleryEvent → Bool
  | GalleryEvent.image _ => true
  | _ => false

def isWarningEvent : GalleryEvent → Bool
  | GalleryEvent.warning _ => true
  | _ => false

/-- Embeds the `for img in images` loop of `Hello.py:157-164`: the events
emitted so far, paired with `some msg` when an uncaught exception
(`KeyError` from `img['src']`, which sits outside the `try`) escapes. -/
def imagesLoop : List ImgTag → List GalleryEvent × Option String
  | [] => ([], none)
  | img :: rest =>
      match img.src with
      | none => ([], some "KeyError: src")
      | some u =>
          let ev := if img.reachable then GalleryEvent.image u
                    else GalleryEvent.warning u
          let r := imagesLoop rest
          (ev :: r.1, r.2)

/-- Embeds `display_images` (`Hello.py:147-166`): header plus the per-image
loop when the page has images, an explicit no-images message otherwise. -/
def display_images (imgs : List ImgTag) : List GalleryEvent × Option String :=
  if 0 < imgs.length then
    let r := imagesLoop imgs
    (GalleryEvent.header :: r.1, r.2)
  else ([GalleryEvent.noImages], none)

/-- Outcome of `requests.get(url)` (`Hello.py:40`): `requests` returns a
response object for any HTTP status (it does not raise on 404/500; the
code never calls `raise_for_status`), and raises only on connection-level
failures. -/
inductive FetchOutcome where
  | response (status : Nat) (body : String)
  | raises (msg : String)

/-- The seven chart options of the sidebar (`Hello.py:307`). -/
inductive ChartKind where
  | bar | cloud | pie | line | scatter | funnel | area
deriving DecidableEq

/-- A user-visible output of one chart-path cycle of `run`. -/
inductive CycleEvent where
  | chart (k : ChartKind)
  | errorMessage (msg : String)
deriving DecidableEq

def isErrorMessageEvent : CycleEvent → Bool
  | CycleEvent.errorMessage _ => true
  | _ => false

def isChartEvent : CycleEvent → Bool
  | CycleEvent.chart _ => true
  | _ => false

/-- Embeds one button-triggered chart cycle of `run` (`Hello.py:320-338`)
for the seven chart options: `get_web_content` (fetch, extract, normalize,
tokenize, aggregate, sort, take 20) then the selected chart adapter.
HTML text extraction and `jieba.lcut` are external collaborators, passed
as opaque functions.  The chart branches of `run` are not wrapped in any
`try`/`except` (only the image branch is), so a raised exception escapes
as `Except.error`; the HTTP status of a returned response is never
inspected.  The funnel branch can raise `ZeroDivisionError` through the
percentage computation (`Hello.py:250`). -/
def runChartCycle (opt : ChartKind) (fetch : FetchOutcome)
    (extract : String → String) (tokenize : String → List String) :
    Except String (List CycleEvent) :=
  match fetch with
  | FetchOutcome.raises m => Except.error m
  | FetchOutcome.response _status body =>
      let words := tokenize (normalize (extract body))
      let counts := aggregate words
      let top_counts := ((sortDesc counts).take 20).map Prod.snd
      let top_20_counts := get_top_counts counts 20
      match opt with
      | ChartKind.funnel =>
          match funnelData top_20_counts top_counts with
          | Except.error m => Except.error m
          | Except.ok _ => Except.ok [CycleEvent.chart ChartKind.funnel]
      | k => Except.ok [CycleEvent.chart k]

theorem insertDesc_perm (x : String × Nat) (l : List (String × Nat)) :
    (insertDesc x l).Perm (x :: l) := by
  induction l with
  | nil => simp [insertDesc]
  | cons y ys ih =>
      by_cases h : y.2 ≤ x.2
      · rw [insertDesc, if_pos h]
      · rw [insertDesc, if_neg h]
        exact (List.Perm.cons y ih).trans (List.Perm.swap x y ys)

theorem sortDesc_perm (l : List (String × Nat)) : (sortDesc l).Perm l := by
  induction l with
  | nil => exact List.Perm.refl []
  | cons x xs ih =>
      exact (insertDesc_perm x (sortDesc xs)).trans (List.Perm.cons x ih)

theorem insertDesc_pairwise (x : String × Nat) (l : List (String × Nat))
    (h : l.Pairwise (fun a b => b.2 ≤ a.2)) :
    (insertDesc x l).Pairwise (fun a b => b.2 ≤ a.2) := by
  induction l with
  | nil => simp [insertDesc]
  | cons y ys ih =>
      rw [List.pairwise_cons] at h
      by_cases hxy : y.2 ≤ x.2
      · rw [insertDesc, if_pos hxy, List.pairwise_cons]
        refine ⟨?_, List.pairwise_cons.mpr h⟩
        intro b hb
        rcases List.mem_cons.mp hb with hby | hbys
        · subst hby; exact hxy
        · exact le_trans (h.1 b hbys) hxy
      · rw [insertDesc, if_neg hxy, List.pairwise_cons]
        refine ⟨?_, ih h.2⟩
        intro b hb
        have hb' : b ∈ x :: ys := (insertDesc_perm x ys).mem_iff.mp hb
        rcases List.mem_cons.mp hb' with hbx | hbys
        · subst hbx; omega
        · exact h.1 b hbys

theorem sortDesc_pairwise (l : List (String × Nat)) :
    (sortDesc l).Pairwise (fun a b => b.2 ≤ a.2) := by
  induction l with
  | nil => simp [sortDesc]
  | cons x xs ih => exact insertDesc_pairwise x (sortDesc xs) ih

theorem insertDesc_filter (x : String × Nat) (l : List (String × Nat))
    (c : Nat) :
    (insertDesc x l).filter (fun e => e.2 == c) =
      if x.2 == c then x :: l.filter (fun e => e.2 == c)
      else l.filter (fun e => e.2 == c) := by
  induction l with
  | nil => rw [insertDesc, List.filter_cons]
  | cons y ys ih =>
      by_cases hxy : y.2 ≤ x.2
      · rw [insertDesc, if_pos hxy, List.filter_cons]
      · rw [insertDesc, if_neg hxy, List.filter_cons, List.filter_cons, ih]
        by_cases hy : (y.2 == c) = true
        · by_cases hx : (x.2 == c) = true
          · exfalso
            have hy' : y.2 = c := by simpa using hy
            have hx' : x.2 = c := by simpa using hx
            omega
          · simp [hy, hx]
        · by_cases hx : (x.2 == c) = true
          · simp [hy, hx]
          · simp [hy, hx]

theorem sortDesc_filter (l : List (String × Nat)) (c : Nat) :
    (sortDesc l).filter (fun e => e.2 == c) =
      l.filter (fun e => e.2 == c) := by
  induction l with
  | nil => rfl
  | cons x xs ih => rw [sortDesc, insertDesc_filter, List.filter_cons, ih]

theorem dictInsert_of_not_mem (l : List (String × Nat)) (k : String) (v : Nat)
    (h : k ∉ l.map Prod.fst) : dictInsert l k v = l ++ [(k, v)] := by
  induction l with
  | nil => rfl
  | cons p rest ih =>
      obtain ⟨k', v'⟩ := p
      simp only [List.map_cons, List.mem_cons, not_or] at h
      rw [dictInsert, if_neg (fun he => h.1 he.symm), ih h.2]
      rfl

theorem dictOfList_from (ps acc : List (String × Nat))
    (h : (acc.map Prod.fst ++ ps.map Prod.fst).Nodup) :
    ps.foldl (fun d p => dictInsert d p.1 p.2) acc = acc ++ ps := by
  induction ps generalizing acc with
  | nil => simp
  | cons p rest ih =>
      have hp : p.1 ∉ acc.map Prod.fst := by
        rw [List.nodup_append] at h
        intro hmem
        exact h.2.2 hmem (List.mem_cons_self _ _)
      have h' : ((acc ++ [p]).map Prod.fst ++ rest.map Prod.fst).Nodup := by
        simpa [List.map_append, List.append_assoc] using h
      rw [List.foldl_cons]
      have hins : dictInsert acc p.1 p.2 = acc ++ [p] := by
        rw [dictInsert_of_not_mem acc p.1 p.2 hp]
      rw [hins, ih (acc ++ [p]) h', List.append_assoc]
      rfl

theorem dictOfList_eq_self (ps : List (String × Nat))
    (h : (ps.map Prod.fst).Nodup) : dictOfList ps = ps := by
  have := dictOfList_from ps [] (by simpa using h)
  simpa [dictOfList] using this

theorem get_top_counts_eq_take (table : List (String × Nat)) (n : Nat)
    (hkeys : (table.map Prod.fst).Nodup) :
    get_top_counts table n = (sortDesc table).take n := by
  have h1 : ((sortDesc table).map Prod.fst).Nodup :=
    ((sortDesc_perm table).map Prod.fst).symm.nodup hkeys
  have h2 : (((sortDesc table).take n).map Prod.fst).Nodup := by
    rw [List.map_take]
    exact List.Nodup.sublist (List.take_sublist n _) h1
  exact dictOfList_eq_self _ h2

theorem sumValues_dictIncr (l : List (String × Nat)) (w : String) :
    sumValues (dictIncr l w) = sumValues l + 1 := by
  induction l with
  | nil => simp [dictIncr, sumValues]
  | cons p rest ih =>
      obtain ⟨k, v⟩ := p
      by_cases h : k = w
      · simp [dictIncr, h, sumValues]
        omega
      · simp [dictIncr, h, sumValues] at ih ⊢
        omega

theorem dictIncr_preserve (l : List (String × Nat)) (w : String)
    (hl : ∀ e ∈ l, e.1.length ≠ 1 ∧ 1 ≤ e.2) (hw : w.length ≠ 1) :
    ∀ e ∈ dictIncr l w, e.1.length ≠ 1 ∧ 1 ≤ e.2 := by
  induction l with
  | nil =>
      intro e he
      simp [dictIncr] at he
      subst he
      exact ⟨hw, le_refl 1⟩
  | cons p rest ih =>
      obtain ⟨k, v⟩ := p
      intro e he
      by_cases h : k = w
      · rw [dictIncr, if_pos h] at he
        rcases List.mem_cons.mp he with h1 | h2
        · subst h1
          have hkv := hl (k, v) (List.mem_cons_self _ _)
          exact ⟨hkv.1, by have := hkv.2; omega⟩
        · exact hl e (List.mem_cons_of_mem _ h2)
      · rw [dictIncr, if_neg h] at he
        rcases List.mem_cons.mp he with h1 | h2
        · subst h1; exact hl _ (List.mem_cons_self _ _)
        · exact ih (fun e' he' => hl e' (List.mem_cons_of_mem _ he')) e h2

theorem aggregateFrom_good (ws : List String) (acc : List (String × Nat))
    (hacc : ∀ e ∈ acc, e.1.length ≠ 1 ∧ 1 ≤ e.2) :
    ∀ e ∈ aggregateFrom acc ws, e.1.length ≠ 1 ∧ 1 ≤ e.2 := by
  induction ws generalizing acc with
  | nil => simpa [aggregateFrom] using hacc
  | cons w ws ih =>
      rw [aggregateFrom]
      by_cases h : w.length = 1
      · rw [if_pos h]; exact ih acc hacc
      · rw [if_neg h]; exact ih _ (dictIncr_preserve acc w hacc h)

theorem aggregateFrom_sum (ws : List String) (acc : List (String × Nat)) :
    sumValues (aggregateFrom acc ws) =
      sumValues acc + (ws.filter (fun w => w.length != 1)).length := by
  induction ws generalizing acc with
  | nil => simp [aggregateFrom]
  | cons w ws ih =>
      rw [aggregateFrom]
      by_cases h : w.length = 1
      · rw [if_pos h, ih, List.filter_cons]
        simp [h]
      · rw [if_neg h, ih, sumValues_dictIncr, List.filter_cons]
        simp [h]
        omega

theorem aggregateFrom_filter (ws : List String) (acc : List (String × Nat)) :
    aggregateFrom acc ws =
      aggregateFrom acc (ws.filter (fun w => w.length != 1)) := by
  induction ws generalizing acc with
  | nil => rfl
  | cons w ws ih =>
      by_cases h : w.length = 1
      · rw [aggregateFrom, if_pos h, List.filter_cons]
        simp only [h, bne_self_eq_false, Bool.false_eq_true, if_false]
        exact ih acc
      · rw [aggregateFrom, if_neg h, List.filter_cons]
        have hb : (w.length != 1) = true := by simpa using h
        rw [if_pos hb, aggregateFrom, if_neg h]
        exact ih _

theorem aggregateFrom_append (ts us : List String)
    (acc : List (String × Nat)) :
    aggregateFrom acc (ts ++ us) =
      aggregateFrom (aggregateFrom acc ts) us := by
  induction ts generalizing acc with
  | nil => rfl
  | cons t ts ih =>
      rw [List.cons_append, aggregateFrom, aggregateFrom]
      exact ih _

theorem lookup_dictIncr (l : List (String × Nat)) (w : String) :
    List.lookup w (dictIncr l w) =
      some ((List.lookup w l).getD 0 + 1) := by
  induction l with
  | nil => simp [dictIncr, List.lookup]
  | cons p rest ih =>
      obtain ⟨k, v⟩ := p
      by_cases h : k = w
      · subst h
        simp [dictIncr, List.lookup]
      · have hkw : (w == k) = false := by
          simp [Ne.symm h]
        rw [dictIncr, if_neg h]
        simp [List.lookup, hkw, ih]

theorem lookup_none_of_length_one (l : List (String × Nat)) (w : String)
    (hl : ∀ e ∈ l, e.1.length ≠ 1) (hw : w.length = 1) :
    List.lookup w l = none := by
  induction l with
  | nil => rfl
  | cons p rest ih =>
      obtain ⟨k, v⟩ := p
      have hk : k.length ≠ 1 := hl (k, v) (List.mem_cons_self _ _)
      have hkw : (w == k) = false := by
        simp only [beq_eq_false_iff_ne, ne_eq]
        intro he
        exact hk (he ▸ hw)
      simp only [List.lookup, hkw]
      exact ih (fun e he => hl e (List.mem_cons_of_mem _ he))

/-- Claim C5: `normalize text` is the subsequence of `text` consisting
exactly of the characters matching `[A-Za-z0-9]` or U+4E00..U+9FA5: the
result is a subsequence of the input, contains only allowed characters,
and keeps every occurrence of every allowed character. -/
theorem normalize_subsequence (s : String) :
    (normalize s).data.Sublist s.data ∧
    (∀ c ∈ (normalize s).data, isAllowed c = true) ∧
    (∀ c : Char, isAllowed c = true →
      (normalize s).data.count c = s.data.count c) := by
  refine ⟨?_, ?_, ?_⟩
  · exact List.filter_sublist s.data
  · intro c hc
    exact (List.mem_filter.mp hc).2
  · intro c hc
    exact List.count_filter hc

theorem normalize_subsequence_witness :
    (normalize "ab!c").data.Sublist "ab!c".data ∧
    isAllowed 'a' = true ∧
    (normalize "ab!c").data.count 'a' = "ab!c".data.count 'a' := by
  have h := normalize_subsequence "ab!c"
  exact ⟨h.1, h.2.1 'a' (by decide), h.2.2 'a' (by decide)⟩

/-- Claim C9: normalization is idempotent,
`normalize (normalize x) = normalize x`. -/
theorem normalize_idempotent (s : String) :
    normalize (normalize s) = normalize s := by
  show String.mk ((s.data.filter isAllowed).filter isAllowed) =
    String.mk (s.data.filter isAllowed)
  rw [List.filter_filter]
  simp only [Bool.and_self]

/-- Claim C3 (amended): for every token sequence, the sum of the values of
the frequency table equals the number of tokens of length different from 1
(the code skips only tokens of length exactly 1, so a length-0 token is
counted), every key has length different from 1, and every value is at
least 1. -/
theorem aggregate_invariant (ts : List String) :
    sumValues (aggregate ts) =
      (ts.filter (fun w => w.length != 1)).length ∧
    (aggregate ts).all (fun e => e.1.length != 1 && decide (1 ≤ e.2)) =
      true := by
  constructor
  · have h := aggregateFrom_sum ts []
    simpa [aggregate, sumValues] using h
  · rw [List.all_eq_true]
    intro e he
    have h := aggregateFrom_good ts [] (by simp) e he
    simp only [Bool.and_eq_true, bne_iff_ne, ne_eq, decide_eq_true_eq]
    exact h

/-- Claim C3 counterexample: on the token sequence consisting of the single
empty-string token, the table's value sum is 1 while the sequence has zero
tokens of length at least 2, and the table has a key of length 0; so the
claimed invariant (sum = number of length-ge-2 tokens, all keys of length
at least 2) fails on the code. -/
theorem aggregate_empty_token_counterexample :
    sumValues (aggregate [""]) = 1 ∧
    (([""] : List String).countP (fun w => decide (2 ≤ w.length))) = 0 ∧
    (aggregate [""]).all (fun e => decide (2 ≤ e.1.length)) = false := by
  decide

/-- Claim C4: the aggregator skips every token of length exactly 1 (the
table built from a token list equals the table built from the sublist of
tokens whose length is not 1), and appending a token `w` of any other
length increments its count, initializing at 1 on first occurrence; a
length-1 token is never a key. -/
theorem aggregate_step (ts : List String) (w : String) :
    aggregate ts = aggregate (ts.filter (fun t => t.length != 1)) ∧
    List.lookup w (aggregate (ts ++ [w])) =
      (if w.length = 1 then none
       else some ((List.lookup w (aggregate ts)).getD 0 + 1)) := by
  constructor
  · exact aggregateFrom_filter ts []
  · have happ : aggregate (ts ++ [w]) = aggregateFrom (aggregate ts) [w] :=
      aggregateFrom_append ts [w] []
    rw [happ]
    by_cases h : w.length = 1
    · rw [if_pos h]
      have hstep : aggregateFrom (aggregate ts) [w] = aggregate ts := by
        rw [aggregateFrom, if_pos h]
        rfl
      rw [hstep]
      exact lookup_none_of_length_one _ w
        (fun e he => (aggregateFrom_good ts [] (by simp) e he).1) h
    · rw [if_neg h]
      have hstep : aggregateFrom (aggregate ts) [w] =
          dictIncr (aggregate ts) w := by
        rw [aggregateFrom, if_neg h]
        rfl
      rw [hstep]
      exact lookup_dictIncr _ w

/-- Claim C2: for every frequency table (insertion-ordered, unique keys)
and every `n`, `get_top_counts` returns exactly `min n |table|` entries,
sorted by count descending, and entries with equal count keep the relative
order they have in the table (first-insertion order): for each count value,
filtering the result by that count yields a sublist of the table filtered
by that count. -/
theorem get_top_counts_spec (table : List (String × Nat)) (n : Nat)
    (hkeys : (table.map Prod.fst).Nodup) :
    (get_top_counts table n).length = min n table.length ∧
    (get_top_counts table n).Pairwise (fun a b => b.2 ≤ a.2) ∧
    ∀ c : Nat,
      ((get_top_counts table n).filter (fun e => e.2 == c)).Sublist
        (table.filter (fun e => e.2 == c)) := by
  have heq := get_top_counts_eq_take table n hkeys
  refine ⟨?_, ?_, ?_⟩
  · rw [heq, List.length_take, (sortDesc_perm table).length_eq]
  · rw [heq]
    exact List.Pairwise.sublist (List.take_sublist n _) (sortDesc_pairwise table)
  · intro c
    rw [heq]
    have h1 := List.Sublist.filter (fun e : String × Nat => e.2 == c)
      (List.take_sublist n (sortDesc table))
    rw [sortDesc_filter] at h1
    exact h1

theorem get_top_counts_spec_witness :
    (get_top_counts [("a", 1), ("b", 2), ("c", 1)] 2).length = min 2 3 ∧
    ((get_top_counts [("a", 1), ("b", 2), ("c", 1)] 2).filter
        (fun e => e.2 == 1)).Sublist
      ([("a", 1), ("b", 2), ("c", 1)].filter (fun e => e.2 == 1)) := by
  have h := get_top_counts_spec [("a", 1), ("b", 2), ("c", 1)] 2 (by decide)
  exact ⟨h.1, h.2.2 1⟩

/-- Claim C7: for every frequency table and every `n`, the value sum of
`get_top_counts table n` is at most the value sum of the table, with
equality when `n` is at least the table size. -/
theorem get_top_counts_sum (table : List (String × Nat)) (n : Nat)
    (hkeys : (table.map Prod.fst).Nodup) :
    sumValues (get_top_counts table n) ≤ sumValues table ∧
    (table.length ≤ n →
      sumValues (get_top_counts table n) = sumValues table) := by
  have heq := get_top_counts_eq_take table n hkeys
  have hperm := sortDesc_perm table
  have hsum : sumValues (sortDesc table) = sumValues table :=
    (hperm.map Prod.snd).sum_eq
  constructor
  · rw [heq]
    have hsplit : sumValues ((sortDesc table).take n) +
        sumValues ((sortDesc table).drop n) = sumValues (sortDesc table) := by
      unfold sumValues
      rw [← List.sum_append, ← List.map_append, List.take_append_drop]
    omega
  · intro hn
    rw [heq, List.take_of_length_le (by rw [hperm.length_eq]; exact hn), hsum]

theorem get_top_counts_sum_witness :
    sumValues (get_top_counts [("a", 2), ("b", 1), ("c", 2)] 20) ≤
      sumValues [("a", 2), ("b", 1), ("c", 2)] ∧
    sumValues (get_top_counts [("a", 2), ("b", 1), ("c", 2)] 20) =
      sumValues [("a", 2), ("b", 1), ("c", 2)] := by
  have h := get_top_counts_sum [("a", 2), ("b", 1), ("c", 2)] 20 (by decide)
  exact ⟨h.1, h.2 (by decide)⟩

/-- Claim C6 (amended): when the full top-20 count list has nonzero sum,
the funnel adapter stores, for each displayed entry, its percentage of the
FULL top-20 sum rounded to 2 decimals; and in exact arithmetic the sum of
the percentages BEFORE rounding equals
`100 * (sum of displayed subset) / (sum of full top-20 list)`.  The sum of
the rounded stored values can differ from that quantity. -/
theorem funnelData_sum (tc : List (String × Nat)) (counts : List Nat)
    (h : counts.sum ≠ 0) :
    funnelData tc counts =
      Except.ok (tc.map (fun e =>
        (e.1, round2 ((e.2 : ℚ) / (counts.sum : ℚ) * 100)))) ∧
    (tc.map (fun e => (e.2 : ℚ) / (counts.sum : ℚ) * 100)).sum =
      100 * (tc.map (fun e => (e.2 : ℚ))).sum / (counts.sum : ℚ) := by
  constructor
  · unfold funnelData
    induction tc with
    | nil => rfl
    | cons e rest ih =>
        rw [funnelLoop, if_neg h, ih]
        rfl
  · have hT : ((counts.sum : Nat) : ℚ) ≠ 0 := Nat.cast_ne_zero.mpr h
    induction tc with
    | nil => simp
    | cons e rest ih =>
        simp only [List.map_cons, List.sum_cons, ih]
        field_simp
        ring

theorem funnelData_sum_witness :
    funnelData [("a", 1), ("b", 3)] [1, 3] =
      Except.ok ([("a", 1), ("b", 3)].map (fun e =>
        (e.1, round2 ((e.2 : ℚ) / (([1, 3] : List Nat).sum : ℚ) * 100)))) ∧
    ([("a", 1), ("b", 3)].map
        (fun e => (e.2 : ℚ) / (([1, 3] : List Nat).sum : ℚ) * 100)).sum =
      100 * ([("a", 1), ("b", 3)].map (fun e => (e.2 : ℚ))).sum /
        (([1, 3] : List Nat).sum : ℚ) :=
  funnelData_sum [("a", 1), ("b", 3)] [1, 3] (by decide)

/-- Claim C6 counterexample: displayed entry `("a", 1)` with full top-20
count list `[1, 2]` (total 3).  The stored value is
`round(1/3*100, 2) = 33.33`, but `100 * 1 / 3 = 33.333...`, so the sum of
the stored (rounded) percentage values does not equal
`100 * (sum of displayed subset) / (sum of full top-20 list)`. -/
theorem funnel_rounded_sum_counterexample :
    funnelData [("a", 1)] [1, 2] = Except.ok [("a", 3333 / 100)] ∧
    ((3333 : ℚ) / 100) ≠ 100 * 1 / 3 := by
  constructor
  · show funnelLoop 3 [("a", 1)] = _
    rw [funnelLoop, if_neg (by norm_num), funnelLoop]
    norm_num [round2, roundHalfEven]
  · norm_num

/-- Claim C10 (amended): with a zero total (`sum(counts) = 0`, which
includes the empty counts list), the funnel percentage computation raises
`ZeroDivisionError` exactly when the displayed mapping is nonempty; when
the displayed mapping is empty the comprehension performs no division and
produces an empty data list instead of raising. -/
theorem funnelData_zero_total (tc : List (String × Nat)) (counts : List Nat)
    (h : counts.sum = 0) :
    funnelData tc counts =
      (if tc.isEmpty then Except.ok []
       else Except.error "ZeroDivisionError") := by
  cases tc with
  | nil => rfl
  | cons e rest =>
      rw [funnelData, h, funnelLoop, if_pos rfl]
      rfl

theorem funnelData_zero_total_witness :
    funnelData [("a", 1)] [] = Except.error "ZeroDivisionError" := by
  have h := funnelData_zero_total [("a", 1)] [] rfl
  simpa using h

/-- Claim C10 counterexample: with an empty displayed mapping and an empty
counts list (sum 0), the comprehension performs no division, so the
adapter returns an (empty) data list rather than raising a
division-by-zero error; the claim quantified over ALL inputs with empty
or zero-sum counts, and fails here. -/
theorem funnel_empty_mapping_counterexample :
    funnelData [] [] = Except.ok [] ∧
    funnelData [] [] ≠ Except.error "ZeroDivisionError" := by
  constructor
  · rfl
  · intro hc
    exact Except.noConfusion hc

theorem imagesLoop_eq (imgs : List ImgTag)
    (hsrc : ∀ i ∈ imgs, i.src.isSome = true) :
    imagesLoop imgs = (imgs.map galleryItem, none) := by
  induction imgs with
  | nil => rfl
  | cons img rest ih =>
      obtain ⟨src, reach⟩ := img
      cases src with
      | none =>
          exact absurd (hsrc ⟨none, reach⟩ (List.mem_cons_self _ _))
            (by simp [Option.isSome])
      | some u =>
          rw [imagesLoop]
          rw [ih (fun i hi => hsrc i (List.mem_cons_of_mem _ hi))]
          cases reach <;> simp [galleryItem]

/-- Claim C8: for every page whose `img` tags all carry a `src`
attribute, the gallery emits the header followed by one item per image in
document order — a rendered image for each downloadable one, an inline
warning for each failing one — no exception escapes, and the number of
image items (resp. warnings) equals the number of reachable
(resp. unreachable) sources; in particular one bad image never aborts the
gallery. -/
theorem display_images_partial_failure (imgs : List ImgTag)
    (hsrc : ∀ i ∈ imgs, i.src.isSome = true) (hne : 0 < imgs.length) :
    display_images imgs =
      (GalleryEvent.header :: imgs.map galleryItem, none) ∧
    (imgs.map galleryItem).countP isImageEvent =
      imgs.countP (fun i => i.reachable) ∧
    (imgs.map galleryItem).countP isWarningEvent =
      imgs.countP (fun i => !i.reachable) := by
  refine ⟨?_, ?_, ?_⟩
  · rw [display_images, if_pos hne, imagesLoop_eq imgs hsrc]
  · rw [List.countP_map]
    apply List.countP_congr
    intro i _
    cases hr : i.reachable <;> simp [galleryItem, isImageEvent, hr]
  · rw [List.countP_map]
    apply List.countP_congr
    intro i _
    cases hr : i.reachable <;> simp [galleryItem, isWarningEvent, hr]

theorem display_images_partial_failure_witness :
    display_images
        [⟨some "u1", true⟩, ⟨some "u2", false⟩, ⟨some "u3", true⟩] =
      (GalleryEvent.header ::
        [ImgTag.mk (some "u1") true, ImgTag.mk (some "u2") false,
          ImgTag.mk (some "u3") true].map galleryItem, none) ∧
    ([ImgTag.mk (some "u1") true, ImgTag.mk (some "u2") false,
        ImgTag.mk (some "u3") true].map galleryItem).countP isImageEvent = 2 ∧
    ([ImgTag.mk (some "u1") true, ImgTag.mk (some "u2") false,
        ImgTag.mk (some "u3") true].map galleryItem).countP isWarningEvent
      = 1 := by
  have h := display_images_partial_failure
    [⟨some "u1", true⟩, ⟨some "u2", false⟩, ⟨some "u3", true⟩]
    (by decide) (by decide)
  refine ⟨h.1, ?_, ?_⟩
  · rw [h.2.1]; decide
  · rw [h.2.2]; decide

theorem funnelLoop_ok (total : Nat) (tc : List (String × Nat))
    (h : total ≠ 0) :
    funnelLoop total tc =
      Except.ok (tc.map (fun e =>
        (e.1, round2 ((e.2 : ℚ) / (total : ℚ) * 100)))) := by
  induction tc with
  | nil => rfl
  | cons e rest ih =>
      rw [funnelLoop, if_neg h, ih]
      rfl

theorem funnel_branch_ok (ws : List String) :
    ∃ l, funnelData (get_top_counts (aggregate ws) 20)
      (((sortDesc (aggregate ws)).take 20).map Prod.snd) = Except.ok l := by
  by_cases hc : aggregate ws = []
  · rw [hc]
    exact ⟨[], rfl⟩
  · have hlen : 0 < ((sortDesc (aggregate ws)).take 20).length := by
      rw [List.length_take, (sortDesc_perm (aggregate ws)).length_eq]
      have := List.length_pos.mpr hc
      omega
    obtain ⟨e, he⟩ :=
      List.exists_mem_of_ne_nil _ (List.ne_nil_of_length_pos hlen)
    have he' : e ∈ aggregate ws :=
      (sortDesc_perm (aggregate ws)).mem_iff.mp
        ((List.take_sublist 20 _).subset he)
    have hpos : 1 ≤ e.2 :=
      (aggregateFrom_good ws [] (by simp) e he').2
    have hmem : e.2 ∈ ((sortDesc (aggregate ws)).take 20).map Prod.snd :=
      List.mem_map_of_mem Prod.snd he
    have hle : e.2 ≤ (((sortDesc (aggregate ws)).take 20).map Prod.snd).sum :=
      List.single_le_sum (fun x _ => Nat.zero_le x) _ hmem
    have htot : (((sortDesc (aggregate ws)).take 20).map Prod.snd).sum ≠ 0 :=
      by omega
    exact ⟨_, funnelLoop_ok _ _ htot⟩

/-- Claim C1 (amended): the chart-path cycle of `run` never inspects the
HTTP status of a returned response: for every status (404 included) and
every chart option it renders exactly one chart and emits no error message
(in the funnel branch the divisor is zero only when the displayed mapping
is also empty, and then no division occurs); and when the fetch itself
raises, the exception escapes the cycle uncaught (the chart path of `run`
has no failure boundary). -/
theorem runChartCycle_ignores_status (opt : ChartKind) (status : Nat)
    (body m : String) (extract : String → String)
    (tokenize : String → List String) :
    runChartCycle opt (FetchOutcome.response status body) extract tokenize =
      Except.ok [CycleEvent.chart opt] ∧
    runChartCycle opt (FetchOutcome.raises m) extract tokenize =
      Except.error m := by
  constructor
  · cases opt
    case funnel =>
        obtain ⟨l, hl⟩ := funnel_branch_ok (tokenize (normalize (extract body)))
        simp only [runChartCycle]
        rw [hl]
    all_goals rfl
  · rfl

theorem runChartCycle_ignores_status_witness :
    runChartCycle ChartKind.funnel (FetchOutcome.response 500 "ServerError")
      id (fun s => [s]) = Except.ok [CycleEvent.chart ChartKind.funnel] ∧
    runChartCycle ChartKind.funnel (FetchOutcome.raises "ConnectionError")
      id (fun s => [s]) = Except.error "ConnectionError" :=
  runChartCycle_ignores_status ChartKind.funnel 500 "ServerError"
    "ConnectionError" id (fun s => [s])

/-- Claim C1 counterexample: a fetch returning HTTP 404 with an error-page
body makes the bar-chart cycle render one chart and zero error messages —
`requests.get` does not raise on a non-success status and `run` never
checks it — contradicting the claim that the cycle produces a single
error message and renders no chart. -/
theorem http404_renders_chart :
    runChartCycle ChartKind.bar (FetchOutcome.response 404 "NotFound") id
      (fun s => [s]) = Except.ok [CycleEvent.chart ChartKind.bar] ∧
    List.countP isErrorMessageEvent [CycleEvent.chart ChartKind.bar] = 0 ∧
    List.countP isChartEvent [CycleEvent.chart ChartKind.bar] = 1 := by
  refine ⟨rfl, by decide, by decide⟩

end Hello
